import Mathlib

/-!
Verification of the streaming code-generation client (src/src/services/api.ts).

The program consumes an HTTP event stream of lines of the form
"data: {code, file}", incrementally accumulates the decoded chunks into a
filename-to-content table, emits a snapshot of the table after every applied
chunk, and returns the final snapshot.  A separate handler exports the
accumulated files (minus "status.log") into a zip archive.

The embedding below models strings as lists of characters (type Str) so that
the buffer/split logic of the stream decoder can be reasoned about by
induction on characters.  External effects (fetch, JSON.parse, JSZip, DOM)
are modelled as data: the HTTP response is a record of the fields the code
inspects, JSON.parse together with the field accesses is an abstract
parameter returning Option Chunk, and the archive is the list of entries
handed to the zip builder.
-/

namespace Vision

/-- Strings are modelled as lists of characters. -/
abbrev Str := List Char

/-- Convenience conversion from Lean string literals. -/
def str (s : String) : Str := s.data

/-- JS whitespace characters relevant to String.prototype.trim
(space, tab, newline, carriage return, vertical tab, form feed). -/
def isWs (c : Char) : Bool :=
  c = ' ' || c = '\t' || c = '\n' || c = '\r' || c = '\x0b' || c = '\x0c'

/-- Model of JS String.prototype.trim: drop whitespace from both ends. -/
def trim (s : Str) : Str :=
  ((s.dropWhile isWs).reverse.dropWhile isWs).reverse

/-- Replace the head of a list, if any, by applying f to it. -/
def mapHead (f : List Char → List Char) : List (List Char) → List (List Char)
  | [] => []
  | l :: ls => f l :: ls

/-- Model of JS s.split('\n'): the list of newline-separated segments.
Always returns a non-empty list; segments contain no newline. -/
def splitNl : Str → List Str
  | [] => [[]]
  | c :: cs => if c = '\n' then [] :: splitNl cs else mapHead (fun l => c :: l) (splitNl cs)

/-- Model of lines.join('\n'). -/
def joinNl (ls : List Str) : Str := List.intercalate ['\n'] ls

/-- One step of the stream decoder (api.ts lines 58-60): append the fragment
to the residual buffer, split on newline, emit all complete segments, and
keep the final (possibly incomplete) segment as the new buffer. -/
def feedFragment (buf : Str) (frag : Str) : List Str × Str :=
  let segs := splitNl (buf ++ frag)
  (segs.dropLast, segs.getLastD [])

/-- Run the stream decoder over a whole list of fragments, starting from a
given residual buffer; returns all decoded lines and the final buffer. -/
def runDecoder (buf : Str) : List Str → List Str × Str
  | [] => ([], buf)
  | f :: fs =>
    let p := feedFragment buf f
    let q := runDecoder p.2 fs
    (p.1 ++ q.1, q.2)

/-- The lines the generation loop actually processes: the decoder is started
on an empty buffer and the final residual buffer is dropped at end-of-input
(api.ts line 56: `if (done) break`). -/
def decodedLines (fs : List Str) : List Str := (runDecoder [] fs).1

/- ## The chunk accumulator (api.ts lines 50, 62-101) -/

/-- A decoded protocol record, api.ts interface CodeChunkResponse. -/
structure Chunk where
  code : Str
  file : Str
deriving DecidableEq, Repr

/-- The filename-to-content table (api.ts line 50, a JS Map), modelled as an
insertion-ordered association list with unique keys. -/
abbrev FileTable := List (Str × Str)

/-- Model of files.get(k) || '' (api.ts line 83). -/
def lookupD : FileTable → Str → Str
  | [], _ => []
  | (k', v) :: rest, k => if k' = k then v else lookupD rest k

/-- Model of files.set(k, v) on a JS Map: update in place when the key
exists (keeping its position), otherwise append at the end. -/
def setEntry : FileTable → Str → Str → FileTable
  | [], k, v => [(k, v)]
  | (k', v') :: rest, k, v =>
    if k' = k then (k', v) :: rest else (k', v') :: setEntry rest k v

/-- api.ts export interface GeneratedFile. -/
structure GeneratedFile where
  filename : Str
  content : Str
deriving DecidableEq, Repr

instance : Inhabited GeneratedFile := ⟨⟨[], []⟩⟩

/-- Model of filename.replace(regex-leading-slash, '') (api.ts lines 91, 111):
remove one leading '/' when present. -/
def stripSlash (s : Str) : Str :=
  match s with
  | [] => []
  | c :: rest => if c = '/' then rest else c :: rest

/-- Materialize the table as the array of GeneratedFile handed to the
progress callback and returned at the end (api.ts lines 89-94, 108-113). -/
def snapshotOf (st : FileTable) : List GeneratedFile :=
  st.map (fun p => ⟨stripSlash p.1, p.2⟩)

/-- Filename resolution (api.ts lines 73-80): if the first line of code
starts with the marker //, the filename is the remainder of that line, trimmed; otherwise,
if file is the sentinel "typescript", the event is discarded (none);
otherwise file is used as-is. -/
def resolvedFilename (c : Chunk) : Option Str :=
  let firstLine := (splitNl c.code).headD []
  if firstLine ≠ [] ∧ (str "//").isPrefixOf firstLine then
    some (trim (firstLine.drop 2))
  else if c.file = str "typescript" then
    none
  else
    some c.file

/-- The accumulated body of a chunk (api.ts line 85):
chunk.code.split('\n').slice(1).join('\n') — the first line is removed
unconditionally. -/
def chunkBody (c : Chunk) : Str := joinNl ((splitNl c.code).tail)

/-- Apply one decoded chunk to the table (api.ts lines 73-96): none when the
event is discarded, otherwise the updated table together with the snapshot
passed to the progress callback. -/
def applyChunk (st : FileTable) (c : Chunk) : Option (FileTable × List GeneratedFile) :=
  match resolvedFilename c with
  | none => none
  | some filename =>
    let st' := setEntry st filename (lookupD st filename ++ chunkBody c)
    some (st', snapshotOf st')

/-- The table transition and optional emitted snapshot for one chunk: a
discarded chunk leaves the table unchanged and emits nothing. -/
def stepChunk (st : FileTable) (c : Chunk) : FileTable × Option (List GeneratedFile) :=
  match applyChunk st c with
  | none => (st, none)
  | some p => (p.1, some p.2)

/-- Fold applyChunk over a list of chunks. -/
def applyChunks : FileTable → List Chunk → FileTable
  | st, [] => st
  | st, c :: cs => applyChunks (stepChunk st c).1 cs

/-- The line filter (api.ts line 64): a decoded line is forwarded to the
payload stage exactly when its trimmed form is non-empty and starts with
"data: ". -/
def forwardedLine (line : Str) : Bool :=
  !(trim line).isEmpty && (str "data: ").isPrefixOf (trim line)

/-- Process one decoded line (api.ts lines 62-100).  The external JSON.parse
(together with the field accesses that would throw on a payload of the wrong
shape) is the parameter parse; a parse failure is the thrown
"Failed to parse server response".  Returns the optionally emitted snapshot
and either the updated table or the fatal error. -/
def processLine (parse : Str → Option Chunk) (st : FileTable) (line : Str) :
    Option (List GeneratedFile) × Except String FileTable :=
  let trimmedLine := trim line
  if forwardedLine line then
    let jsonStr := trim (trimmedLine.drop 5)
    if jsonStr = [] then
      (none, .ok st)
    else
      match parse jsonStr with
      | none => (none, .error "Failed to parse server response")
      | some c =>
        let q := stepChunk st c
        (q.2, .ok q.1)
  else
    (none, .ok st)

/-- Process a list of decoded lines in order, collecting every emitted
snapshot; a parse error aborts the loop (the thrown error propagates out of
the for-loop, api.ts line 99). -/
def runLines (parse : Str → Option Chunk) (st : FileTable) :
    List Str → List (List GeneratedFile) × Except String FileTable
  | [] => ([], .ok st)
  | l :: ls =>
    match processLine parse st l with
    | (osnap, .error e) => (osnap.toList, .error e)
    | (osnap, .ok st₁) =>
      let q := runLines parse st₁ ls
      (osnap.toList ++ q.1, q.2)

/-- The successive values of the files Map at each onProgress invocation:
the loop emits a snapshot exactly when a chunk is applied (api.ts lines
86-96), and the snapshot it emits is built from the table right after
files.set.  This records those table states, so that the emitted snapshots
can be tied to the actual tables of the run. -/
def emittedTables (parse : Str → Option Chunk) (st : FileTable) :
    List Str → List FileTable
  | [] => []
  | l :: ls =>
    match processLine parse st l with
    | (_, .error _) => []
    | (osnap, .ok st₁) =>
      (match osnap with
       | none => []
       | some _ => [st₁]) ++ emittedTables parse st₁ ls

/-- The response fields the function inspects (api.ts lines 36-45): ok and
statusText from fetch, detail from the parsed JSON error body (none when the
body is absent, not JSON, or has no detail field; some "" models a falsy
detail value), and whether a readable body is present. -/
structure HttpResponse where
  ok : Bool
  statusText : String
  detail : Option String
  hasBody : Bool

/-- The message of the error thrown on a non-ok response (api.ts lines
38-40): errorData?.detail when truthy, otherwise the template with the
status text. -/
def errorMessage (detail : Option String) (statusText : String) : String :=
  match detail with
  | some d => if d = "" then "Failed to generate code: " ++ statusText else d
  | none => "Failed to generate code: " ++ statusText

/-- The whole generation function (api.ts lines 23-116) as a function of the
response, the JSON decoder, and the raw stream fragments: the list of
snapshots passed to onProgress, and either the final files array or the
thrown error. -/
def generateCodeFromPrompt (resp : HttpResponse) (parse : Str → Option Chunk)
    (fragments : List Str) :
    List (List GeneratedFile) × Except String (List GeneratedFile) :=
  if !resp.ok then
    ([], .error (errorMessage resp.detail resp.statusText))
  else if !resp.hasBody then
    ([], .error "No response body received")
  else
    let r := runLines parse [] (decodedLines fragments)
    (r.1, r.2.map snapshotOf)

/-- The archive built by handleDownload (Preview.tsx lines 147-158 and
886-897): one zip entry per accumulated file, in order, skipping the file
named status.log. -/
def handleDownload (files : List GeneratedFile) : List GeneratedFile :=
  files.filter (fun f => f.filename ≠ str "status.log")

/- ## Decoder lemmas -/

theorem splitNl_ne_nil (s : Str) : splitNl s ≠ [] := by
  induction s with
  | nil => simp [splitNl]
  | cons c cs ih =>
    simp only [splitNl]
    split
    · simp
    · cases h : splitNl cs with
      | nil => exact absurd h ih
      | cons l ls => simp [mapHead]

theorem mem_splitNl_no_newline (s : Str) : ∀ l ∈ splitNl s, '\n' ∉ l := by
  induction s with
  | nil => intro l hl; simp [splitNl] at hl; simp [hl]
  | cons c cs ih =>
    intro l hl
    simp only [splitNl] at hl
    by_cases hc : c = '\n'
    · simp [hc] at hl
      rcases hl with h | h
      · simp [h]
      · exact ih l h
    · simp [hc] at hl
      cases hsp : splitNl cs with
      | nil => exact absurd hsp (splitNl_ne_nil cs)
      | cons l0 ls =>
        rw [hsp] at hl
        simp [mapHead] at hl
        rcases hl with h | h
        · subst h
          intro hmem
          rcases List.mem_cons.mp hmem with h1 | h1
          · exact hc h1.symm
          · exact ih l0 (by rw [hsp]; exact List.mem_cons_self _ _) h1
        · exact ih l (by rw [hsp]; exact List.mem_cons_of_mem _ h)

theorem splitNl_no_newline (s : Str) (h : '\n' ∉ s) : splitNl s = [s] := by
  induction s with
  | nil => simp [splitNl]
  | cons c cs ih =>
    simp only [splitNl]
    have hc : c ≠ '\n' := fun hc => h (hc ▸ List.mem_cons_self c cs)
    rw [if_neg hc, ih (fun hm => h (List.mem_cons_of_mem c hm))]
    simp [mapHead]

/-- Appending text distributes over splitNl: the segments of x ++ y are the
complete segments of x, then the last segment of x glued onto the first
segment of y, then the remaining segments of y. -/
theorem splitNl_append (x y : Str) :
    splitNl (x ++ y) =
      (splitNl x).dropLast ++ mapHead (fun l => (splitNl x).getLastD [] ++ l) (splitNl y) := by
  induction x with
  | nil =>
    simp only [List.nil_append, splitNl, List.dropLast_single]
    cases h : splitNl y with
    | nil => exact absurd h (splitNl_ne_nil y)
    | cons l ls => simp [mapHead]
  | cons c cs ih =>
    cases h : splitNl cs with
    | nil => exact absurd h (splitNl_ne_nil cs)
    | cons l ls =>
      rw [List.cons_append]
      by_cases hc : c = '\n'
      · subst hc
        rw [show splitNl ('\n' :: (cs ++ y)) = [] :: splitNl (cs ++ y) by simp [splitNl]]
        rw [show splitNl ('\n' :: cs) = [] :: splitNl cs by simp [splitNl]]
        rw [ih, h]
        cases ls with
        | nil =>
          cases hy : splitNl y with
          | nil => exact absurd hy (splitNl_ne_nil y)
          | cons m ms => simp [mapHead]
        | cons l1 ls1 => simp [mapHead, List.getLastD_cons]
      · rw [show splitNl (c :: (cs ++ y)) = mapHead (fun l => c :: l) (splitNl (cs ++ y)) by
          simp [splitNl, hc]]
        rw [show splitNl (c :: cs) = mapHead (fun l => c :: l) (splitNl cs) by simp [splitNl, hc]]
        rw [ih, h]
        cases ls with
        | nil =>
          cases hy : splitNl y with
          | nil => exact absurd hy (splitNl_ne_nil y)
          | cons m ms => simp [mapHead, hy]
        | cons l1 ls1 =>
          cases hy : splitNl y with
          | nil => exact absurd hy (splitNl_ne_nil y)
          | cons m ms => simp [mapHead, hy, List.getLastD_cons]

theorem getLastD_mem {α : Type} (d : α) : ∀ (l : List α), l ≠ [] → l.getLastD d ∈ l
  | [a], _ => by simp [List.getLastD]
  | a :: b :: t, _ => by
    rw [List.getLastD_cons]
    exact List.mem_cons_of_mem _ (getLastD_mem a (b :: t) (by simp))

theorem getLastD_append_right {α : Type} (b : α) (B : List α) : ∀ (A : List α) (d : α),
    (A ++ b :: B).getLastD d = (b :: B).getLastD d
  | [], _ => rfl
  | a :: A, d => by
    rw [List.cons_append, List.getLastD_cons, getLastD_append_right b B A a,
      List.getLastD_cons, List.getLastD_cons]

/-- The residual buffer of the decoder never contains a newline. -/
theorem no_newline_in_buffer (s : Str) : '\n' ∉ (splitNl s).getLastD [] :=
  mem_splitNl_no_newline s _ (getLastD_mem [] (splitNl s) (splitNl_ne_nil s))

/-- Running the decoder over a fragment list is the same as splitting the
concatenation of the buffer and all fragments: the output lines are all
complete segments and the final buffer is the last (incomplete) segment. -/
theorem runDecoder_spec (fs : List Str) : ∀ (buf : Str), '\n' ∉ buf →
    runDecoder buf fs =
      ((splitNl (buf ++ fs.flatten)).dropLast, (splitNl (buf ++ fs.flatten)).getLastD []) := by
  induction fs with
  | nil =>
    intro buf hbuf
    rw [List.flatten_nil, List.append_nil, splitNl_no_newline buf hbuf]
    simp [runDecoder, List.getLastD]
  | cons f fs ih =>
    intro buf hbuf
    have hg : '\n' ∉ (splitNl (buf ++ f)).getLastD [] := no_newline_in_buffer (buf ++ f)
    have hsplit : splitNl (buf ++ f ++ fs.flatten) =
        (splitNl (buf ++ f)).dropLast ++ splitNl ((splitNl (buf ++ f)).getLastD [] ++ fs.flatten) := by
      rw [splitNl_append (buf ++ f) fs.flatten,
        splitNl_append ((splitNl (buf ++ f)).getLastD []) fs.flatten,
        splitNl_no_newline _ hg]
      simp [List.getLastD]
    have hne : splitNl ((splitNl (buf ++ f)).getLastD [] ++ fs.flatten) ≠ [] := splitNl_ne_nil _
    simp only [runDecoder, feedFragment, ih _ hg, List.flatten_cons, ← List.append_assoc, hsplit,
      Prod.mk.injEq]
    constructor
    · rw [List.dropLast_append_of_ne_nil _ hne]
    · cases h : splitNl ((splitNl (buf ++ f)).getLastD [] ++ fs.flatten) with
      | nil => exact absurd h hne
      | cons m ms => rw [getLastD_append_right]

/- ## Helper lemmas about the accumulator -/

theorem lookupD_setEntry_self : ∀ (st : FileTable) (k v : Str),
    lookupD (setEntry st k v) k = v
  | [], k, v => by simp [setEntry, lookupD]
  | (k', v') :: rest, k, v => by
    by_cases h : k' = k
    · simp [setEntry, lookupD, h]
    · simp [setEntry, lookupD, h, lookupD_setEntry_self rest k v]

theorem applyChunk_resolved (st : FileTable) (c : Chunk) (f : Str)
    (h : resolvedFilename c = some f) :
    applyChunk st c =
      some (setEntry st f (lookupD st f ++ chunkBody c),
        snapshotOf (setEntry st f (lookupD st f ++ chunkBody c))) := by
  simp [applyChunk, h]

theorem lookupD_applyChunks (f : Str) : ∀ (cs : List Chunk) (st : FileTable),
    (∀ c ∈ cs, resolvedFilename c = some f) →
    lookupD (applyChunks st cs) f = lookupD st f ++ (cs.map chunkBody).flatten
  | [], st, _ => by simp [applyChunks]
  | c :: cs, st, h => by
    have hc : resolvedFilename c = some f := h c (List.mem_cons_self _ _)
    have hrest : ∀ c' ∈ cs, resolvedFilename c' = some f :=
      fun c' hm => h c' (List.mem_cons_of_mem _ hm)
    simp only [applyChunks, stepChunk, applyChunk_resolved st c f hc]
    rw [lookupD_applyChunks f cs _ hrest, lookupD_setEntry_self]
    simp

/- ## Claim C1 -/

/-- C1: the claim is false on the code.  For a chunk whose filename is taken
from the file field (first line of code is not a // marker), the code
still strips the first line: accumulating the single-line chunk
code = "const x=1;" under file = "App.tsx" stores the empty content, not the
entire code value. -/
theorem unmarked_chunk_keeps_first_line_false :
    resolvedFilename ⟨str "const x=1;", str "App.tsx"⟩ = some (str "App.tsx") ∧
    applyChunks [] [⟨str "const x=1;", str "App.tsx"⟩] = [(str "App.tsx", [])] ∧
    ([] : Str) ≠ str "const x=1;" := by
  refine ⟨by decide, ?_, by decide⟩
  decide

/-- C1 (amended): for every sequence of chunk events whose resolved filename
is the same, the final accumulated content for that filename equals the
concatenation, in arrival order, of the code body of each event with the first
line always stripped — also when the filename was taken from the file
field of the event. -/
theorem content_is_ordered_concat_of_stripped_bodies (cs : List Chunk) (f : Str)
    (h : ∀ c ∈ cs, resolvedFilename c = some f) :
    lookupD (applyChunks [] cs) f = (cs.map chunkBody).flatten := by
  rw [lookupD_applyChunks f cs [] h]
  rfl

/-- Witness for the amended C1: a marker chunk and an unmarked chunk, both
resolving to "a.ts", accumulate the concatenation of their stripped bodies. -/
theorem content_is_ordered_concat_witness :
    (∀ c ∈ ([⟨str "// a.ts\nx", str "typescript"⟩,
             ⟨str "hello\nworld", str "a.ts"⟩] : List Chunk),
      resolvedFilename c = some (str "a.ts")) ∧
    lookupD (applyChunks []
      [⟨str "// a.ts\nx", str "typescript"⟩, ⟨str "hello\nworld", str "a.ts"⟩])
      (str "a.ts") = str "xworld" :=
  ⟨by decide,
    (content_is_ordered_concat_of_stripped_bodies
      [⟨str "// a.ts\nx", str "typescript"⟩, ⟨str "hello\nworld", str "a.ts"⟩]
      (str "a.ts") (by decide)).trans (by decide)⟩

/- ## Claim C4 -/

/-- C4: a chunk event whose file field is "typescript" and whose code has
a first line that does not start with // is discarded: the table is unchanged
and no snapshot is emitted. -/
theorem typescript_chunk_without_marker_discarded (st : FileTable) (c : Chunk)
    (hfile : c.file = str "typescript")
    (hmarker : (str "//").isPrefixOf ((splitNl c.code).headD []) = false) :
    applyChunk st c = none ∧ stepChunk st c = (st, none) := by
  have hres : resolvedFilename c = none := by
    rw [resolvedFilename]
    rw [if_neg (fun hp => by rw [hmarker] at hp; exact Bool.false_ne_true hp.2)]
    rw [if_pos hfile]
  refine ⟨?_, ?_⟩ <;> simp [applyChunk, stepChunk, hres]

/-- Witness for C4 at a concrete table and chunk. -/
theorem typescript_chunk_discarded_witness :
    ((⟨str "let x=1;", str "typescript"⟩ : Chunk).file = str "typescript") ∧
    ((str "//").isPrefixOf
      ((splitNl (⟨str "let x=1;", str "typescript"⟩ : Chunk).code).headD []) = false) ∧
    (applyChunk [(str "a.ts", str "y")] ⟨str "let x=1;", str "typescript"⟩ = none ∧
      stepChunk [(str "a.ts", str "y")] ⟨str "let x=1;", str "typescript"⟩ =
        ([(str "a.ts", str "y")], none)) :=
  ⟨by decide, by decide,
    typescript_chunk_without_marker_discarded [(str "a.ts", str "y")]
      ⟨str "let x=1;", str "typescript"⟩ (by decide) (by decide)⟩

/- ## Claim C9 -/

/-- C9: the exported archive contains exactly the accumulated files whose
filename is not "status.log", each as the unchanged record (same filename,
byte-for-byte same content), preserving order. -/
theorem handleDownload_excludes_status_log (files : List GeneratedFile) (e : GeneratedFile) :
    (e ∈ handleDownload files ↔ e ∈ files ∧ e.filename ≠ str "status.log") ∧
    (handleDownload files).Sublist files := by
  constructor
  · simp [handleDownload, List.mem_filter]
  · exact List.filter_sublist _

/-- Witness for C9 at a concrete file list. -/
theorem handleDownload_excludes_status_log_witness :
    ((⟨str "a.ts", str "x"⟩ : GeneratedFile) ∈
        handleDownload [⟨str "status.log", str "s"⟩, ⟨str "a.ts", str "x"⟩] ↔
      (⟨str "a.ts", str "x"⟩ : GeneratedFile) ∈
          ([⟨str "status.log", str "s"⟩, ⟨str "a.ts", str "x"⟩] : List GeneratedFile) ∧
        (str "a.ts" ≠ str "status.log")) ∧
    (handleDownload [⟨str "status.log", str "s"⟩, ⟨str "a.ts", str "x"⟩]).Sublist
      [⟨str "status.log", str "s"⟩, ⟨str "a.ts", str "x"⟩] :=
  handleDownload_excludes_status_log
    [⟨str "status.log", str "s"⟩, ⟨str "a.ts", str "x"⟩] ⟨str "a.ts", str "x"⟩

/- ## Claim C2 -/

/-- C2: the stream decoder is invariant under re-chunking.  A single
protocol line (terminated by its newline) split across arbitrarily many
fragment boundaries yields exactly the one decoded line with an empty final
buffer, identically to feeding it as one fragment; and as long as no newline
has arrived, the residual buffer carries the whole incomplete tail. -/
theorem stream_decoder_rechunking (s : Str) (fs : List Str)
    (h1 : '\n' ∉ s) (h2 : fs.flatten = s ++ ['\n']) :
    runDecoder [] fs = ([s], []) ∧
    runDecoder [] fs = runDecoder [] [s ++ ['\n']] ∧
    ∀ gs : List Str, '\n' ∉ gs.flatten → runDecoder [] gs = ([], gs.flatten) := by
  have hkey : splitNl (s ++ ['\n']) = [s, []] := by
    rw [splitNl_append s ['\n'], splitNl_no_newline s h1]
    rw [show splitNl ['\n'] = [[], []] from rfl]
    simp [mapHead, List.getLastD]
  have hbase : ∀ gs : List Str, gs.flatten = s ++ ['\n'] → runDecoder [] gs = ([s], []) := by
    intro gs hgs
    rw [runDecoder_spec gs [] (by simp), List.nil_append, hgs, hkey]
    simp [List.getLastD]
  refine ⟨hbase fs h2, ?_, ?_⟩
  · rw [hbase fs h2, hbase [s ++ ['\n']] (by simp)]
  · intro gs hgs
    rw [runDecoder_spec gs [] (by simp), List.nil_append, splitNl_no_newline _ hgs]
    simp [List.getLastD]

/-- Witness for C2: the line "data: x" with its newline, split into three
fragments, decodes to exactly that one line. -/
theorem stream_decoder_rechunking_witness :
    ('\n' ∉ str "data: x") ∧
    ([str "da", str "ta: ", str "x\n"].flatten = str "data: x" ++ ['\n']) ∧
    runDecoder [] [str "da", str "ta: ", str "x\n"] = ([str "data: x"], []) :=
  ⟨by decide, by decide,
    (stream_decoder_rechunking (str "data: x") [str "da", str "ta: ", str "x\n"]
      (by decide) (by decide)).1⟩

/- ## Claim C6 -/

/-- C6: a trailing partial line without a terminating newline is discarded:
appending any newline-free tail to the stream changes neither the decoded
lines nor the snapshots and final files of the whole generation. -/
theorem trailing_partial_line_discarded (resp : HttpResponse)
    (parse : Str → Option Chunk) (s t : Str) (h : '\n' ∉ t) :
    decodedLines [s ++ t] = decodedLines [s] ∧
    generateCodeFromPrompt resp parse [s ++ t] = generateCodeFromPrompt resp parse [s] := by
  have hd : decodedLines [s ++ t] = decodedLines [s] := by
    have e1 := runDecoder_spec [s ++ t] [] (by simp)
    have e2 := runDecoder_spec [s] [] (by simp)
    rw [decodedLines, decodedLines, e1, e2]
    simp only [List.flatten_cons, List.flatten_nil, List.append_nil, List.nil_append]
    rw [splitNl_append s t, splitNl_no_newline t h]
    cases hs : splitNl s with
    | nil => exact absurd hs (splitNl_ne_nil s)
    | cons m ms => simp [mapHead, List.dropLast_concat]
  refine ⟨hd, ?_⟩
  rw [generateCodeFromPrompt, generateCodeFromPrompt, hd]

/-- Witness for C6: the unterminated tail "data: y" after a complete line is
never decoded and never reaches the output. -/
theorem trailing_partial_line_discarded_witness :
    ('\n' ∉ str "data: y") ∧
    decodedLines [str "data: x\n" ++ str "data: y"] = decodedLines [str "data: x\n"] ∧
    generateCodeFromPrompt ⟨true, "", none, true⟩ (fun _ => none)
        [str "data: x\n" ++ str "data: y"] =
      generateCodeFromPrompt ⟨true, "", none, true⟩ (fun _ => none) [str "data: x\n"] :=
  ⟨by decide,
    (trailing_partial_line_discarded ⟨true, "", none, true⟩ (fun _ => none)
      (str "data: x\n") (str "data: y") (by decide)).1,
    (trailing_partial_line_discarded ⟨true, "", none, true⟩ (fun _ => none)
      (str "data: x\n") (str "data: y") (by decide)).2⟩

/- ## Line-processing lemmas -/

theorem processLine_not_forwarded (parse : Str → Option Chunk) (st : FileTable)
    (line : Str) (h : forwardedLine line = false) :
    processLine parse st line = (none, .ok st) := by
  simp [processLine, h]

theorem processLine_parse_failure (parse : Str → Option Chunk) (st : FileTable) (line : Str)
    (hfwd : forwardedLine line = true)
    (hne : trim ((trim line).drop 5) ≠ [])
    (hparse : parse (trim ((trim line).drop 5)) = none) :
    processLine parse st line = (none, .error "Failed to parse server response") := by
  simp [processLine, hfwd, hne, hparse]

theorem applyChunk_snapshot (st : FileTable) (c : Chunk)
    (p : FileTable × List GeneratedFile) (h : applyChunk st c = some p) :
    p.2 = snapshotOf p.1 := by
  rw [applyChunk] at h
  cases hr : resolvedFilename c with
  | none => rw [hr] at h; cases h
  | some f =>
    rw [hr] at h
    simp only [Option.some.injEq] at h
    rw [← h]

theorem processLine_ok_cases (parse : Str → Option Chunk) (st : FileTable) (line : Str)
    (osnap : Option (List GeneratedFile)) (st₁ : FileTable)
    (h : processLine parse st line = (osnap, Except.ok st₁)) :
    (osnap = none ∧ st₁ = st) ∨ osnap = some (snapshotOf st₁) := by
  by_cases hf : forwardedLine line
  · by_cases hj : trim ((trim line).drop 5) = []
    · simp [processLine, hf, hj] at h
      exact Or.inl ⟨h.1.symm, h.2.symm⟩
    · cases hp : parse (trim ((trim line).drop 5)) with
      | none => simp [processLine, hf, hj, hp] at h
      | some c =>
        cases ha : applyChunk st c with
        | none =>
          simp [processLine, hf, hj, hp, stepChunk, ha] at h
          exact Or.inl ⟨h.1.symm, h.2.symm⟩
        | some p =>
          simp [processLine, hf, hj, hp, stepChunk, ha] at h
          refine Or.inr ?_
          rw [← h.1, ← h.2, applyChunk_snapshot st c p ha]
  · have hb : forwardedLine line = false := Bool.eq_false_iff.mpr hf
    rw [processLine_not_forwarded parse st line hb] at h
    simp at h
    exact Or.inl ⟨h.1.symm, h.2.symm⟩

theorem processLine_error_none (parse : Str → Option Chunk) (st : FileTable) (line : Str)
    (osnap : Option (List GeneratedFile)) (e : String)
    (h : processLine parse st line = (osnap, Except.error e)) : osnap = none := by
  by_cases hf : forwardedLine line
  · by_cases hj : trim ((trim line).drop 5) = []
    · simp [processLine, hf, hj] at h
    · cases hp : parse (trim ((trim line).drop 5)) with
      | none => simp [processLine, hf, hj, hp] at h; exact h.1.symm
      | some c =>
        cases ha : applyChunk st c with
        | none => simp [processLine, hf, hj, hp, stepChunk, ha] at h
        | some p => simp [processLine, hf, hj, hp, stepChunk, ha] at h
  · have hb : forwardedLine line = false := Bool.eq_false_iff.mpr hf
    rw [processLine_not_forwarded parse st line hb] at h
    simp at h

theorem runLines_append_ok (parse : Str → Option Chunk) (ys : List Str) :
    ∀ (xs : List Str) (st st₁ : FileTable) (ss : List (List GeneratedFile)),
      runLines parse st xs = (ss, .ok st₁) →
      runLines parse st (xs ++ ys) =
        (ss ++ (runLines parse st₁ ys).1, (runLines parse st₁ ys).2)
  | [], st, st₁, ss, h => by
    simp only [runLines, Prod.mk.injEq, Except.ok.injEq] at h
    rw [List.nil_append, ← h.1, ← h.2]
    simp
  | l :: xs, st, st₁, ss, h => by
    cases hp : processLine parse st l with
    | mk osnap r =>
      cases r with
      | error e => simp [runLines, hp] at h
      | ok st₂ =>
        cases hq : runLines parse st₂ xs with
        | mk ss₂ r₂ =>
          simp only [runLines, hp, hq, Prod.mk.injEq] at h
          obtain ⟨h1, h2⟩ := h
          rw [h2] at hq
          rw [List.cons_append]
          simp only [runLines, hp]
          rw [runLines_append_ok parse ys xs st₂ st₁ ss₂ hq]
          rw [← h1]
          simp [List.append_assoc]

theorem getLastD_ne_nil {α : Type} (l : List α) (h : l ≠ []) (d d' : α) :
    l.getLastD d = l.getLastD d' := by
  cases l with
  | nil => exact absurd rfl h
  | cons b t => rw [List.getLastD_cons, List.getLastD_cons]

/-- Every table change emits the snapshot of the changed table, so on a
successful run the last emitted snapshot (when one exists) is the snapshot
of the final table. -/
theorem runLines_last_snapshot (parse : Str → Option Chunk) :
    ∀ (ls : List Str) (st st' : FileTable) (ss : List (List GeneratedFile)),
      runLines parse st ls = (ss, .ok st') →
      (ss = [] ∧ st' = st) ∨ (ss ≠ [] ∧ ss.getLastD [] = snapshotOf st')
  | [], st, st', ss, h => by
    simp only [runLines, Prod.mk.injEq, Except.ok.injEq] at h
    exact Or.inl ⟨h.1.symm, h.2.symm⟩
  | l :: ls, st, st', ss, h => by
    cases hp : processLine parse st l with
    | mk osnap r =>
      cases r with
      | error e => simp [runLines, hp] at h
      | ok st₁ =>
        cases hq : runLines parse st₁ ls with
        | mk ss₂ r₂ =>
          simp only [runLines, hp, hq, Prod.mk.injEq] at h
          obtain ⟨h1, h2⟩ := h
          rw [h2] at hq
          have ih := runLines_last_snapshot parse ls st₁ st' ss₂ hq
          cases osnap with
          | none =>
            rw [← h1]
            simp only [Option.toList_none, List.nil_append]
            rcases ih with ⟨hss, hst⟩ | hlast
            · rcases processLine_ok_cases parse st l none st₁ hp with ⟨_, hst1⟩ | hsome
              · exact Or.inl ⟨hss, hst.trans hst1⟩
              · cases hsome
            · exact Or.inr hlast
          | some snap =>
            have hsnap : snap = snapshotOf st₁ := by
              rcases processLine_ok_cases parse st l (some snap) st₁ hp with ⟨hn, _⟩ | hsome
              · cases hn
              · exact Option.some.injEq .. ▸ hsome
            rw [← h1]
            refine Or.inr ⟨by simp, ?_⟩
            rcases ih with ⟨hss, hst⟩ | ⟨hne, hlast⟩
            · rw [hss]
              simp only [Option.toList_some, List.singleton_append, List.nil_append]
              rw [hsnap, hst, List.getLastD_cons]
              rfl
            · simp only [Option.toList_some, List.singleton_append]
              rw [List.getLastD_cons, getLastD_ne_nil ss₂ hne snap [], hlast]

/-- Every snapshot emitted during a run is the materialization of some
table. -/
theorem snapshots_from_runLines (parse : Str → Option Chunk) :
    ∀ (ls : List Str) (st : FileTable) (snap : List GeneratedFile),
      snap ∈ (runLines parse st ls).1 → ∃ st₀ : FileTable, snap = snapshotOf st₀
  | [], _, _, h => by simp [runLines] at h
  | l :: ls, st, snap, h => by
    cases hp : processLine parse st l with
    | mk osnap r =>
      have hosnap : ∀ st₁, osnap = some snap → processLine parse st l = (osnap, Except.ok st₁) →
          ∃ st₀, snap = snapshotOf st₀ := by
        intro st₁ hs hpl
        rcases processLine_ok_cases parse st l osnap st₁ hpl with ⟨hn, _⟩ | hsome
        · rw [hn] at hs; cases hs
        · rw [hs] at hsome
          exact ⟨st₁, Option.some.injEq .. ▸ hsome⟩
      cases r with
      | error e =>
        simp only [runLines, hp] at h
        rw [processLine_error_none parse st l osnap e hp] at h
        simp at h
      | ok st₁ =>
        simp only [runLines, hp] at h
        rcases List.mem_append.mp h with hmem | hmem
        · cases osnap with
          | none => simp at hmem
          | some s =>
            simp only [Option.toList_some, List.mem_singleton] at hmem
            exact hosnap st₁ (by rw [hmem]) hp
        · exact snapshots_from_runLines parse ls st₁ snap hmem

/- ## Claim C3 -/

/-- C3: a forwarded line whose non-empty payload the JSON decode rejects
makes the whole generation fail with the single protocol error; the lines
after it are never processed: no snapshots beyond those of the prefix are
emitted and no files are returned. -/
theorem parse_failure_aborts_generation (resp : HttpResponse) (parse : Str → Option Chunk)
    (fragments pre post : List Str) (bad : Str)
    (ss : List (List GeneratedFile)) (st : FileTable)
    (hok : resp.ok = true) (hbody : resp.hasBody = true)
    (hdec : decodedLines fragments = pre ++ bad :: post)
    (hpre : runLines parse [] pre = (ss, .ok st))
    (hfwd : forwardedLine bad = true)
    (hne : trim ((trim bad).drop 5) ≠ [])
    (hparse : parse (trim ((trim bad).drop 5)) = none) :
    generateCodeFromPrompt resp parse fragments =
      (ss, .error "Failed to parse server response") := by
  have hrun : runLines parse [] (pre ++ bad :: post) =
      (ss, .error "Failed to parse server response") := by
    rw [runLines_append_ok parse (bad :: post) pre [] st ss hpre]
    rw [show runLines parse st (bad :: post) =
        ((none : Option (List GeneratedFile)).toList, .error "Failed to parse server response") by
      simp only [runLines, processLine_parse_failure parse st bad hfwd hne hparse]]
    simp
  rw [generateCodeFromPrompt, hok, hbody]
  simp only [Bool.not_true, Bool.false_eq_true, if_false, hdec, hrun]
  rfl

/-- Witness for C3: with a decoder that rejects every payload, the stream
"data: x\ndata: y\n" fails at the first line and the second is ignored. -/
theorem parse_failure_aborts_generation_witness :
    ((⟨true, "", none, true⟩ : HttpResponse).ok = true) ∧
    (decodedLines [str "data: x\ndata: y\n"] = [] ++ str "data: x" :: [str "data: y"]) ∧
    (runLines (fun _ => none) [] [] = ([], .ok [])) ∧
    (forwardedLine (str "data: x") = true) ∧
    ((fun _ => (none : Option Chunk)) (trim ((trim (str "data: x")).drop 5)) = none) ∧
    generateCodeFromPrompt ⟨true, "", none, true⟩ (fun _ => none) [str "data: x\ndata: y\n"] =
      ([], .error "Failed to parse server response") :=
  ⟨rfl, by decide, rfl, by decide, rfl,
    parse_failure_aborts_generation ⟨true, "", none, true⟩ (fun _ => none)
      [str "data: x\ndata: y\n"] [] [str "data: y"] (str "data: x") [] []
      rfl rfl (by decide) rfl (by decide) (by decide) rfl⟩

/- ## Claim C7 -/

/-- C7: the claim is false on the code.  The line " data: x" (leading
space) does not have the exact prefix "data: ", yet it is forwarded to the
payload stage: it is trimmed first, so with a rejecting decoder it produces
a protocol error rather than being silently ignored. -/
theorem line_with_leading_space_forwarded :
    forwardedLine (str " data: x") = true ∧
    (str "data: ").isPrefixOf (str " data: x") = false ∧
    processLine (fun _ => none) [] (str " data: x") =
      (none, Except.error "Failed to parse server response") :=
  ⟨by decide, by decide, rfl⟩

/-- C7 (amended): a decoded line is forwarded as a protocol payload
candidate if and only if its whitespace-trimmed form is non-blank and has
the exact prefix "data: "; every line that is not forwarded is silently
ignored — no accumulation, no callback, no error. -/
theorem line_filter_amended (line : Str) :
    (forwardedLine line = true ↔
      trim line ≠ [] ∧ (str "data: ").isPrefixOf (trim line) = true) ∧
    (forwardedLine line = false →
      ∀ (parse : Str → Option Chunk) (st : FileTable),
        processLine parse st line = (none, Except.ok st)) := by
  constructor
  · simp [forwardedLine, List.isEmpty_iff, and_comm]
  · intro hf parse st
    exact processLine_not_forwarded parse st line hf

/-- Witness for the amended C7 at two concrete lines: "data: x" is
forwarded, and the non-data line "event: ping" is ignored. -/
theorem line_filter_amended_witness :
    (forwardedLine (str "data: x") = true ↔
      trim (str "data: x") ≠ [] ∧ (str "data: ").isPrefixOf (trim (str "data: x")) = true) ∧
    (forwardedLine (str "event: ping") = false →
      ∀ (parse : Str → Option Chunk) (st : FileTable),
        processLine parse st (str "event: ping") = (none, Except.ok st)) :=
  ⟨(line_filter_amended (str "data: x")).1, (line_filter_amended (str "event: ping")).2⟩

/- ## Claim C8 -/

/-- C8: the claim is false on the code.  When the error body has no detail
field the thrown message is not the bare status text but the template
"Failed to generate code: " followed by the status text; and a present but
empty (falsy) detail also falls back to the template. -/
theorem http_error_message_counterexample :
    errorMessage none "Not Found" = "Failed to generate code: Not Found" ∧
    errorMessage none "Not Found" ≠ "Not Found" ∧
    errorMessage (some "") "Not Found" ≠ "" :=
  ⟨rfl, by decide, by decide⟩

/-- C8 (amended): on a non-success response the generation fails before any
stream data is read (the result does not depend on the stream), with the
message equal to the detail field when present and non-empty, and otherwise
equal to "Failed to generate code: " followed by the status text. -/
theorem http_error_amended (resp : HttpResponse) (parse : Str → Option Chunk)
    (fragments : List Str) (h : resp.ok = false) :
    generateCodeFromPrompt resp parse fragments =
      ([], .error (errorMessage resp.detail resp.statusText)) ∧
    (∀ d, resp.detail = some d → d ≠ "" →
      errorMessage resp.detail resp.statusText = d) ∧
    ((resp.detail = none ∨ resp.detail = some "") →
      errorMessage resp.detail resp.statusText =
        "Failed to generate code: " ++ resp.statusText) := by
  refine ⟨?_, ?_, ?_⟩
  · simp [generateCodeFromPrompt, h]
  · intro d hd hne
    rw [hd]
    simp [errorMessage, hne]
  · rintro (hd | hd) <;> rw [hd] <;> simp [errorMessage]

/-- Witness for the amended C8 at a concrete 404 response; the stream
fragments are non-trivial and do not influence the result. -/
theorem http_error_amended_witness :
    ((⟨false, "Not Found", none, true⟩ : HttpResponse).ok = false) ∧
    generateCodeFromPrompt ⟨false, "Not Found", none, true⟩ (fun _ => none)
        [str "data: x\n"] =
      ([], .error (errorMessage none "Not Found")) :=
  ⟨rfl,
    (http_error_amended ⟨false, "Not Found", none, true⟩ (fun _ => none)
      [str "data: x\n"] rfl).1⟩

/- ## Claim C5 -/

theorem getD_map_lt {α β : Type} [Inhabited β] (f : α → β) (d : α) :
    ∀ (l : List α) (i : Nat), i < l.length → (l.map f).getD i default = f (l.getD i d)
  | a :: t, 0, _ => by simp [List.getD]
  | a :: t, i + 1, h => by
    simp only [List.map_cons, List.getD_cons_succ]
    exact getD_map_lt f d t i (Nat.lt_of_succ_lt_succ h)
  | [], i, h => absurd h (Nat.not_lt_zero i)

theorem stripSlash_eq (s : Str) :
    stripSlash s = if s.headD ' ' = '/' then s.tail else s := by
  cases s with
  | nil => simp [stripSlash]
  | cons c rest =>
    by_cases hc : c = '/'
    · simp [stripSlash, hc]
    · simp [stripSlash, hc]

theorem snapshotOf_pointwise (st : FileTable) :
    (snapshotOf st).length = st.length ∧
    ∀ i : Nat, i < st.length →
      ((snapshotOf st).getD i default).content = (st.getD i default).2 ∧
      ((snapshotOf st).getD i default).filename = stripSlash (st.getD i default).1 := by
  refine ⟨by simp [snapshotOf], ?_⟩
  intro i hi
  rw [snapshotOf, getD_map_lt (fun p => (⟨stripSlash p.1, p.2⟩ : GeneratedFile)) default st i hi]
  exact ⟨rfl, rfl⟩

/-- The snapshots a run emits are exactly the materializations of the
actual successive tables of that run: when a line is applied, the emitted
snapshot is snapshotOf of the table recorded for that emission. -/
theorem runLines_snapshots_eq (parse : Str → Option Chunk) :
    ∀ (ls : List Str) (st : FileTable),
      (runLines parse st ls).1 = (emittedTables parse st ls).map snapshotOf
  | [], st => by simp [runLines, emittedTables]
  | l :: ls, st => by
    cases hp : processLine parse st l with
    | mk osnap r =>
      cases r with
      | error e =>
        simp only [runLines, emittedTables, hp]
        rw [processLine_error_none parse st l osnap e hp]
        simp
      | ok st₁ =>
        cases osnap with
        | none =>
          simp only [runLines, emittedTables, hp]
          simpa using runLines_snapshots_eq parse ls st₁
        | some snap =>
          have hs : snap = snapshotOf st₁ := by
            rcases processLine_ok_cases parse st l (some snap) st₁ hp with ⟨hn, _⟩ | hsome
            · cases hn
            · exact Option.some.injEq .. ▸ hsome
          simp only [runLines, emittedTables, hp]
          simp [hs, runLines_snapshots_eq parse ls st₁]

/-- C5: the emitted snapshots are tied to the actual tables of the run.
The progress-callback arguments are, in order, exactly snapshotOf of the
successive FileTable states recorded at each applied event; the returned
files array is snapshotOf of the actual final table of the run; and
snapshotOf maps every table entry to one whose content is unchanged and
whose filename has exactly one leading '/' removed when the table key
begins with '/', and is the unchanged key otherwise. -/
theorem emitted_snapshots_strip_leading_slash (resp : HttpResponse)
    (parse : Str → Option Chunk) (fragments : List Str)
    (hok : resp.ok = true) (hbody : resp.hasBody = true) :
    (generateCodeFromPrompt resp parse fragments).1 =
      (emittedTables parse [] (decodedLines fragments)).map snapshotOf ∧
    (∀ stF : FileTable,
      (runLines parse [] (decodedLines fragments)).2 = Except.ok stF →
      (generateCodeFromPrompt resp parse fragments).2 = Except.ok (snapshotOf stF)) ∧
    ∀ (tbl : FileTable) (i : Nat), i < tbl.length →
      ((snapshotOf tbl).getD i default).content = (tbl.getD i default).2 ∧
      ((snapshotOf tbl).getD i default).filename =
        (if ((tbl.getD i default).1).headD ' ' = '/'
         then ((tbl.getD i default).1).tail
         else (tbl.getD i default).1) := by
  refine ⟨?_, ?_, ?_⟩
  · simp only [generateCodeFromPrompt, hok, hbody, Bool.not_true, Bool.false_eq_true, if_false]
    exact runLines_snapshots_eq parse (decodedLines fragments) []
  · intro stF hstF
    simp only [generateCodeFromPrompt, hok, hbody, Bool.not_true, Bool.false_eq_true, if_false]
    rw [hstF]
    rfl
  · intro tbl i hi
    obtain ⟨hc, hf⟩ := (snapshotOf_pointwise tbl).2 i hi
    exact ⟨hc, by rw [hf, stripSlash_eq]⟩

/-- Witness for C5 at a concrete run: one applied event stores the table
key "/src/App.tsx", and the emitted snapshot carries that same entry with
the filename "src/App.tsx" — the actual table of the run, stripped. -/
theorem emitted_snapshots_strip_leading_slash_witness :
    ((⟨true, "", none, true⟩ : HttpResponse).ok = true) ∧
    ((⟨true, "", none, true⟩ : HttpResponse).hasBody = true) ∧
    emittedTables (fun p => some ⟨str "m\n" ++ p, str "/src/App.tsx"⟩) []
        (decodedLines [str "data: x\n"]) = [[(str "/src/App.tsx", str "x")]] ∧
    (generateCodeFromPrompt ⟨true, "", none, true⟩
        (fun p => some ⟨str "m\n" ++ p, str "/src/App.tsx"⟩) [str "data: x\n"]).1 =
      [[⟨str "src/App.tsx", str "x"⟩]] ∧
    (generateCodeFromPrompt ⟨true, "", none, true⟩
        (fun p => some ⟨str "m\n" ++ p, str "/src/App.tsx"⟩) [str "data: x\n"]).1 =
      (emittedTables (fun p => some ⟨str "m\n" ++ p, str "/src/App.tsx"⟩) []
        (decodedLines [str "data: x\n"])).map snapshotOf :=
  ⟨rfl, rfl, by decide, by decide,
    (emitted_snapshots_strip_leading_slash ⟨true, "", none, true⟩
      (fun p => some ⟨str "m\n" ++ p, str "/src/App.tsx"⟩) [str "data: x\n"] rfl rfl).1⟩

/- ## Claim C10 -/

/-- C10: on normal completion with at least one emitted snapshot, the files
array returned by the generation function equals the snapshot passed to the
last progress-callback invocation: both are the same materialization of the
final table. -/
theorem final_result_equals_last_snapshot (resp : HttpResponse)
    (parse : Str → Option Chunk) (fragments : List Str)
    (ss : List (List GeneratedFile)) (out : List GeneratedFile)
    (h : generateCodeFromPrompt resp parse fragments = (ss, .ok out))
    (hne : ss ≠ []) :
    ss.getLastD [] = out := by
  by_cases hok : resp.ok
  · by_cases hb : resp.hasBody
    · simp only [generateCodeFromPrompt, hok, hb, Bool.not_true, Bool.false_eq_true,
        if_false] at h
      cases hr : runLines parse [] (decodedLines fragments) with
      | mk ss₂ r₂ =>
        rw [hr] at h
        cases r₂ with
        | error e => simp [Except.map] at h
        | ok st' =>
          simp only [Except.map, Prod.mk.injEq, Except.ok.injEq] at h
          obtain ⟨h1, h2⟩ := h
          rw [h1] at hr
          rcases runLines_last_snapshot parse (decodedLines fragments) [] st' ss hr with
            ⟨hss, _⟩ | ⟨_, hlast⟩
          · exact absurd hss hne
          · rw [hlast, h2]
    · simp [generateCodeFromPrompt, hok, hb] at h
  · simp [generateCodeFromPrompt, hok] at h

/-- Witness for C10: two applied events; the returned files equal the last
of the two emitted snapshots. -/
theorem final_result_equals_last_snapshot_witness :
    generateCodeFromPrompt ⟨true, "", none, true⟩
        (fun p => some ⟨str "a\n" ++ p, str "f.ts"⟩) [str "data: x\n", str "data: y\n"] =
      ([[⟨str "f.ts", str "x"⟩], [⟨str "f.ts", str "xy"⟩]],
        .ok [⟨str "f.ts", str "xy"⟩]) ∧
    ([[⟨str "f.ts", str "x"⟩], [⟨str "f.ts", str "xy"⟩]] : List (List GeneratedFile)) ≠ [] ∧
    ([[⟨str "f.ts", str "x"⟩], [⟨str "f.ts", str "xy"⟩]] :
        List (List GeneratedFile)).getLastD [] = [⟨str "f.ts", str "xy"⟩] :=
  ⟨rfl, by decide,
    final_result_equals_last_snapshot ⟨true, "", none, true⟩
      (fun p => some ⟨str "a\n" ++ p, str "f.ts"⟩) [str "data: x\n", str "data: y\n"]
      [[⟨str "f.ts", str "x"⟩], [⟨str "f.ts", str "xy"⟩]] [⟨str "f.ts", str "xy"⟩]
      rfl (by decide)⟩
